import Mathlib

/-!
# go-wp: the WirePlumber sink picker (`wp.go`)

A shallow embedding of `wp.go` and the properties its specification states.

Conventions of the embedding

* A Go `string` is a `Str`, the list of its Unicode code points (the status
  text is taken to be valid UTF-8).
* `regexp` is embedded by a small regular-expression type `Re` with the
  leftmost-first (backtracking-priority) semantics the Go documentation
  gives for `regexp`: `Re.results` lists every way an expression can match
  at the start of a text, in the order a backtracking matcher tries them,
  and a search takes the first entry at the leftmost start that has one.
  `starc` is the star of a one-character class, the only star either
  expression of `wp.go` uses.
* A run-time panic (index out of range) and a returned `error` are the two
  constructors of `Failure`; functions that can fail return `Except Failure`.
* External commands are not run: `retrieve_sinks` takes the outcome of
  `wpctl status` as its argument and `model.View` reports the commands it
  starts in its result.
-/

namespace Wp

/-- A Go string, as the list of its code points. -/
abbrev Str := List Char

/-! ## `strings` -/

/-- The function `unicode.IsSpace`: the Unicode White_Space code points. -/
def isSpace (c : Char) : Bool :=
  let n := c.toNat
  n == 0x09 || n == 0x0A || n == 0x0B || n == 0x0C || n == 0x0D || n == 0x20 ||
  n == 0x85 || n == 0xA0 || n == 0x1680 || (0x2000 ≤ n && n ≤ 0x200A) ||
  n == 0x2028 || n == 0x2029 || n == 0x202F || n == 0x205F || n == 0x3000

/-- The function `strings.TrimSpace`: leading and trailing white space removed. -/
def TrimSpace (s : Str) : Str :=
  ((s.dropWhile isSpace).reverse.dropWhile isSpace).reverse

/-- The function `strings.Contains`: `sub` occurs somewhere in `s`. -/
def Contains : Str → Str → Bool
  | [], sub => sub.isEmpty
  | c :: s, sub => sub.isPrefixOf (c :: s) || Contains s sub

/-- The function `strings.Split` for a one-character separator: the pieces
between the separators; always at least one piece. -/
def Split (sep : Char) : Str → List Str
  | [] => [[]]
  | c :: s =>
    if c = sep then [] :: Split sep s
    else
      match Split sep s with
      | [] => [[c]]
      | l :: ls => (c :: l) :: ls

/-! ## `regexp` -/

/-- Regular expressions: the fragment the two expressions of `wp.go` use. -/
inductive Re where
  | lit (c : Char)
  | cls (p : Char → Bool)
  | seq (a b : Re)
  | alt (a b : Re)
  | opt (a : Re)
  | starc (p : Char → Bool)
  | cap (i : Nat) (a : Re)

/-- The texts left after a greedy `p*`: longest run first, then shorter ones. -/
def starRes (p : Char → Bool) : Str → List Str
  | [] => [[]]
  | c :: s => if p c then starRes p s ++ [c :: s] else [c :: s]

/-- Every match of an expression at the start of `s`, in backtracking
priority order: the text left after the match and the capture groups. -/
def Re.results : Re → Str → List Str → List (Str × List Str)
  | .lit c, s, caps =>
    match s with
    | [] => []
    | x :: xs => if x = c then [(xs, caps)] else []
  | .cls p, s, caps =>
    match s with
    | [] => []
    | x :: xs => if p x then [(xs, caps)] else []
  | .seq a b, s, caps => (a.results s caps).flatMap fun r => b.results r.1 r.2
  | .alt a b, s, caps => a.results s caps ++ b.results s caps
  | .opt a, s, caps => a.results s caps ++ [(s, caps)]
  | .starc p, s, caps => (starRes p s).map fun t => (t, caps)
  | .cap i a, s, caps =>
    (a.results s caps).map fun r => (r.1, r.2.set i (s.take (s.length - r.1.length)))

/-- The first match of `re` that starts exactly at the start of `s`: the text
left after it and the submatches, entry 0 being the whole match. -/
def matchAt (re : Re) (ngroups : Nat) (s : Str) : Option (Str × List Str) :=
  match re.results s (List.replicate (ngroups + 1) []) with
  | [] => none
  | r :: _ => some (r.1, r.2.set 0 (s.take (s.length - r.1.length)))

/-- The method `(*Regexp).FindStringSubmatch`: the submatches of the leftmost
match, `none` (Go: `nil`) when the expression matches nowhere. -/
def FindStringSubmatch (re : Re) (ngroups : Nat) : Str → Option (List Str)
  | [] => (matchAt re ngroups []).map Prod.snd
  | c :: s =>
    match matchAt re ngroups (c :: s) with
    | some r => some r.2
    | none => FindStringSubmatch re ngroups s

/-- Scanning loop of `ReplaceAllStringEmpty`; `skip` counts the characters of
the current match that are still to be dropped. -/
def replaceLoop (re : Re) : Str → Nat → Str
  | [], _ => []
  | _ :: s, skip + 1 => replaceLoop re s skip
  | c :: s, 0 =>
    match matchAt re 0 (c :: s) with
    | none => c :: replaceLoop re s 0
    | some r =>
      let n := (c :: s).length - r.1.length
      if n = 0 then c :: replaceLoop re s 0 else replaceLoop re s (n - 1)

/-- The call `re.ReplaceAllString(src, "")`: every match removed. -/
def ReplaceAllStringEmpty (re : Re) (src : Str) : Str :=
  replaceLoop re src 0

/-! ## The constants of `wp.go` -/

/-- The tree-drawing glyphs of `expression1`. -/
def glyphs : List Char := ['├', '─', '│', '└']

/-- The constant `expression1`, written `├|─|│|└`. -/
def expression1 : Re :=
  .alt (.lit '├') (.alt (.lit '─') (.alt (.lit '│') (.lit '└')))

/-- The class `\s` of Go regular expressions: `[\t\n\f\r ]`. -/
def reSpace (c : Char) : Bool :=
  c.toNat == 0x09 || c.toNat == 0x0A || c.toNat == 0x0C || c.toNat == 0x0D || c.toNat == 0x20

/-- The class `[0-9]`. -/
def reDigit (c : Char) : Bool :=
  0x30 ≤ c.toNat && c.toNat ≤ 0x39

/-- The class `.`: any character but the line feed. -/
def reDot (c : Char) : Bool :=
  c.toNat != 0x0A

/-- The line feed, the separator `wp.go` splits the status text on. -/
def newline : Char := Char.ofNat 0x0A

/-- The constant `expression2`, written
`(?P<current>\*?)\s*(?P<num>[0-9]*)\. (?P<name>.*)\[(?P<vol>.*)\]`. -/
def expression2 : Re :=
  .seq (.cap 1 (.opt (.lit '*')))
  (.seq (.starc reSpace)
  (.seq (.cap 2 (.starc reDigit))
  (.seq (.lit '.')
  (.seq (.lit ' ')
  (.seq (.cap 3 (.starc reDot))
  (.seq (.lit '[')
  (.seq (.cap 4 (.starc reDot))
  (.lit ']'))))))))

/-- The section header `retrieve_sinks` looks for. -/
def sinksHeader : Str := "Sinks:".toList

/-! ## `retrieve_sinks` -/

/-- The two ways `retrieve_sinks` can fail: the `error` it returns when
`wpctl status` fails, and the run-time panic of an index out of range. -/
inductive Failure where
  | execError
  | indexOutOfRange
  deriving DecidableEq, Repr

/-- The first loop of `retrieve_sinks`: `key` after
`for key, value = range lines { if strings.Contains(value, "Sinks:") { break } }`;
`idx` is the index of the head of the list, `key` the value so far. -/
def findKey : List Str → Nat → Nat → Nat
  | [], _, key => key
  | value :: rest, idx, _ =>
    if Contains value sinksHeader then idx else findKey rest (idx + 1) idx

/-- The second loop of `retrieve_sinks`: the trimmed lines up to the first
one that is empty after trimming. -/
def collectSinks : List Str → List Str → List Str
  | [], sinks => sinks
  | value :: rest, sinks =>
    let sv := TrimSpace value
    if sv = [] then sinks else collectSinks rest (sinks ++ [sv])

/-- The third loop of `retrieve_sinks`: each line is matched against
`expression2`; `match[1]`, `match[2]`, `match[3]` panic when there is no match. -/
def extractSinks : List Str → List Str → List Str → Except Failure (List Str × List Str)
  | [], names, nums => .ok (names, nums)
  | value :: rest, names, nums =>
    match FindStringSubmatch expression2 4 value with
    | none => .error .indexOutOfRange
    | some m =>
      match m[1]?, m[2]?, m[3]? with
      | some current, some num, some name =>
        extractSinks rest (names ++ [current ++ name]) (nums ++ [num])
      | _, _, _ => .error .indexOutOfRange

/-- The lines of the status text after the glyphs are removed. -/
def statusLines (out : Str) : List Str :=
  Split newline (ReplaceAllStringEmpty expression1 out)

/-- The variable `sinks` of `retrieve_sinks` after the second loop; `none`
when the slice `lines[key+1:]` is out of range. -/
def sinksBlock (out : Str) : Option (List Str) :=
  let lines := statusLines out
  let key := findKey lines 0 0
  if key + 1 ≤ lines.length then some (collectSinks (lines.drop (key + 1)) []) else none

/-- The function `retrieve_sinks`, given the outcome of `wpctl status`
(`none` when the command failed): the sink names and ids. -/
def retrieve_sinks (status : Option Str) : Except Failure (List Str × List Str) :=
  match status with
  | none => .error .execError
  | some out =>
    match sinksBlock out with
    | none => .error .indexOutOfRange
    | some sinks => extractSinks sinks [] []

deriving instance DecidableEq for Except

/-! ## The selector: `item`, `model`, `Update`, `View`, `tui` -/

/-- The type `item`: an audio sink, its name and id. -/
structure item where
  name : Str
  id : Str
  deriving DecidableEq, Repr

/-- The part of the `list.Model` of the bubbles library that `wp.go` relies
on: the items, the index of the selected one (`Index()`), and the width. -/
structure ListModel where
  items : List item
  index : Nat
  width : Int
  deriving DecidableEq, Repr

/-- The method `SelectedItem` of the list: the item under the cursor, `none`
(Go: `nil`) when the index is not an index of the list. -/
def ListModel.SelectedItem (l : ListModel) : Option item :=
  l.items[l.index]?

/-- The messages `Update` receives: a window size, a key press (with the text
of `msg.String()`), or any other message of the framework. -/
inductive Msg where
  | WindowSizeMsg (Width Height : Int)
  | KeyMsg (keypress : Str)
  | other (tag : Nat)
  deriving DecidableEq, Repr

/-- The commands `Update` returns: `nil`, `tea.Quit`, or a command of the list. -/
inductive Cmd where
  | nil
  | Quit
  | ofList (tag : Nat)
  deriving DecidableEq, Repr

/-- The type `model`. -/
structure model where
  list : ListModel
  choice : Str
  id : Str
  quitting : Bool
  deriving DecidableEq, Repr

/-- The method `model.Update`; `listUpdate` is the `Update` of the list. -/
def model.Update (listUpdate : ListModel → Msg → ListModel × Cmd) (m : model) (msg : Msg) :
    model × Cmd :=
  match msg with
  | .WindowSizeMsg w _ => ({ m with list := { m.list with width := w } }, .nil)
  | .KeyMsg keypress =>
    if keypress = "q".toList ∨ keypress = "ctrl+c".toList then
      ({ m with quitting := true }, .Quit)
    else if keypress = "enter".toList then
      match m.list.SelectedItem with
      | some i => ({ m with choice := i.name, id := i.id }, .Quit)
      | none => (m, .Quit)
    else
      let r := listUpdate m.list msg
      ({ m with list := r.1 }, r.2)
  | .other _ =>
    let r := listUpdate m.list msg
    ({ m with list := r.1 }, r.2)

/-- What `model.View` does: the external commands it starts (each with its
arguments), whether it ends the process with `log.Fatal`, and the text it
returns. -/
structure ViewResult where
  execs : List (List Str)
  fatal : Bool
  text : Str
  deriving DecidableEq, Repr

/-- The command line `wpctl set-default <id>`. -/
def setDefault (id : Str) : List Str :=
  ["wpctl".toList, "set-default".toList, id]

/-- The method `model.View`; `run` tells whether an external command
succeeds, `render` is `quitTextStyle.Render`, `listView` the `View` of the list. -/
def model.View (run : List Str → Bool) (render : Str → Str) (listView : ListModel → Str)
    (m : model) : ViewResult :=
  if m.choice ≠ [] then
    if run (setDefault m.id) then
      { execs := [setDefault m.id], fatal := false,
        text := render ("Setting ".toList ++ m.choice ++ ".".toList) }
    else
      { execs := [setDefault m.id], fatal := true, text := [] }
  else if m.quitting then
    { execs := [], fatal := false, text := render "Skipping for now...".toList }
  else
    { execs := [], fatal := false, text := newline :: listView m.list }

/-- The constant `defaultWidth`. -/
def defaultWidth : Int := 20

/-- The loop of `tui` that builds the items: `item{v, nums[k]}` for each
name `v` at index `k`; `none` when `nums[k]` is out of range (a panic). -/
def tuiItems (nums : List Str) : List Str → Nat → Option (List item)
  | [], _ => some []
  | v :: rest, k =>
    match nums[k]? with
    | none => none
    | some n => (tuiItems nums rest (k + 1)).map fun items => { name := v, id := n } :: items

/-- The function `tui`: the model over the list of the items, nothing chosen. -/
def tui (names nums : List Str) : Option model :=
  (tuiItems nums names 0).map fun items =>
    { list := { items := items, index := 0, width := defaultWidth },
      choice := [], id := [], quitting := false }

/-- The model with the cursor of its list moved to `k`. -/
def model.atCursor (m : model) (k : Nat) : model :=
  { m with list := { m.list with index := k } }

/-! ## Names for what the claims speak of -/

/-- The name `retrieve_sinks` records for a sink line: the marker joined to
the name text. -/
def sinkName (line : Str) : Str :=
  match FindStringSubmatch expression2 4 line with
  | some m => m[1]?.getD [] ++ m[3]?.getD []
  | none => []

/-- The id `retrieve_sinks` records for a sink line. -/
def sinkId (line : Str) : Str :=
  match FindStringSubmatch expression2 4 line with
  | some m => m[2]?.getD []
  | none => []

/-- The line matches `expression2` somewhere. -/
def sinkMatches (line : Str) : Bool :=
  (FindStringSubmatch expression2 4 line).isSome

/-! ## Shapes and sample inputs the theorems speak of -/

/-- A line read the way `expression2` reads it from its start: the marker
`c1`, white space `w`, the digits `c2`, `. `, the name `c3`, `[`, the volume
`c4`, `]`, and the text `t` left over. -/
def SinkShape (s c1 w c2 c3 c4 t : Str) : Prop :=
  s = c1 ++ (w ++ (c2 ++ ('.' :: ' ' :: (c3 ++ ('[' :: (c4 ++ (']' :: t))))))) ∧
  (c1 = ['*'] ∨ c1 = []) ∧ (∀ c ∈ w, reSpace c = true) ∧ (∀ c ∈ c2, reDigit c = true) ∧
  (∀ c ∈ c3, reDot c = true) ∧ (∀ c ∈ c4, reDot c = true)

/-- The submatches `matchAt` builds from the parts of a sink line. -/
def submatches (whole c1 c2 c3 c4 : Str) : List Str := [whole, c1, c2, c3, c4]

set_option maxRecDepth 100000

/-- A status text with tree glyphs, two sinks, and a later video section
that has a `Sinks:` header of its own. -/
def sampleStatus : Str :=
  ("Audio\n ├─ Sinks:\n │  *   46. Built-in Audio [vol: 0.40]\n │      47. HDMI [vol: 1.00]\n" ++
   " │\n └─ Sources:\n │  *   48. Mic [vol: 1.00]\n\nVideo\n ├─ Sinks:\n │      60. Cam [vol: 1.00]\n").toList

/-- The example of the specification: the header, one sink line, a blank line. -/
def speakersStatus : Str :=
  "Sinks:\n  * 1. Speakers [vol: 0.50]\n\n".toList

/-- A status text without any `Sinks:` header. -/
def noHeaderStatus : Str :=
  "Audio\n ├─ Devices:\n │      40. Built-in Audio [alsa]\n\n".toList

/-- Two lines that match `expression2` away from the marker: one begins with
`*` but is matched from its `. ` on, one has a name text that begins with `*`. -/
def markerStatus : Str :=
  "Sinks:\n* x. Foo [v]\n1. *Foo [v]\n\n".toList

/-- A list `Update` that changes nothing, for the examples. -/
def idleListUpdate (l : ListModel) (_ : Msg) : ListModel × Cmd := (l, .nil)

/-- A model in the Browsing state over two sinks, cursor on the second. -/
def browsingModel : model :=
  { list := { items := [{ name := "*Built-in Audio ".toList, id := "46".toList },
                        { name := "HDMI ".toList, id := "47".toList }],
              index := 1, width := 20 },
    choice := [], id := [], quitting := false }

/-- The Cancelled model: `browsingModel` after `q`. -/
def cancelledModel : model := { browsingModel with quitting := true }

/-- The Confirmed model: `browsingModel` after `enter`. -/
def confirmedModel : model :=
  { browsingModel with choice := "HDMI ".toList, id := "47".toList }

/-! ## Lemmas on the regular expressions -/

theorem take_length_sub (pre t : Str) :
    (pre ++ t).take ((pre ++ t).length - t.length) = pre := by
  simp

theorem mem_starRes {p : Char → Bool} {s t : Str} :
    t ∈ starRes p s ↔ ∃ pre, s = pre ++ t ∧ ∀ c ∈ pre, p c = true := by
  induction s with
  | nil =>
    simp only [starRes, List.mem_singleton]
    constructor
    · rintro rfl
      exact ⟨[], rfl, by simp⟩
    · rintro ⟨pre, h, _⟩
      have := List.append_eq_nil.mp h.symm
      exact this.2
  | cons x xs ih =>
    simp only [starRes]
    split
    · rename_i hp
      rw [List.mem_append, ih, List.mem_singleton]
      constructor
      · rintro (⟨pre, rfl, hpre⟩ | rfl)
        · refine ⟨x :: pre, rfl, ?_⟩
          intro c hc
          rcases List.mem_cons.mp hc with rfl | hc
          · exact hp
          · exact hpre c hc
        · exact ⟨[], rfl, by simp⟩
      · rintro ⟨pre, h, hpre⟩
        cases pre with
        | nil => right; exact h.symm
        | cons y ys =>
          left
          simp only [List.cons_append, List.cons.injEq] at h
          exact ⟨ys, h.2, fun c hc => hpre c (List.mem_cons_of_mem _ hc)⟩
    · rename_i hp
      rw [List.mem_singleton]
      constructor
      · rintro rfl
        exact ⟨[], rfl, by simp⟩
      · rintro ⟨pre, h, hpre⟩
        cases pre with
        | nil => exact h.symm
        | cons y ys =>
          simp only [List.cons_append, List.cons.injEq] at h
          exact absurd (hpre y (List.mem_cons_self _ _)) (by rw [← h.1]; exact hp)

theorem mem_results_lit {c : Char} {s : Str} {caps : List Str} {r : Str × List Str} :
    r ∈ (Re.lit c).results s caps ↔ s = c :: r.1 ∧ r.2 = caps := by
  cases s with
  | nil => simp [Re.results]
  | cons x xs =>
    simp only [Re.results]
    split
    · rename_i h
      subst h
      rw [List.mem_singleton]
      constructor
      · rintro rfl
        exact ⟨rfl, rfl⟩
      · rintro ⟨h1, h2⟩
        simp only [List.cons.injEq, true_and] at h1
        exact Prod.ext h1.symm h2
    · rename_i h
      simp only [List.not_mem_nil, List.cons.injEq, false_iff, not_and]
      intro h1
      exact absurd h1.1 h

theorem mem_results_seq {a b : Re} {s : Str} {caps : List Str} {r : Str × List Str} :
    r ∈ (Re.seq a b).results s caps ↔
      ∃ q, q ∈ a.results s caps ∧ r ∈ b.results q.1 q.2 := by
  simp only [Re.results, List.mem_flatMap]

theorem mem_results_cap_starc {i : Nat} {p : Char → Bool} {s : Str} {caps : List Str}
    {r : Str × List Str} :
    r ∈ (Re.cap i (Re.starc p)).results s caps ↔
      ∃ pre, s = pre ++ r.1 ∧ (∀ c ∈ pre, p c = true) ∧ r.2 = caps.set i pre := by
  simp only [Re.results, List.mem_map, mem_starRes]
  constructor
  · rintro ⟨q, ⟨t, ⟨pre, hs, hp⟩, rfl⟩, rfl⟩
    refine ⟨pre, hs, hp, ?_⟩
    subst hs
    simp
  · rintro ⟨pre, hs, hp, hr⟩
    refine ⟨(r.1, caps), ⟨r.1, ⟨pre, hs, hp⟩, rfl⟩, ?_⟩
    subst hs
    apply Prod.ext
    · rfl
    · simp [hr]

theorem mem_results_starc {p : Char → Bool} {s : Str} {caps : List Str}
    {r : Str × List Str} :
    r ∈ (Re.starc p).results s caps ↔
      ∃ pre, s = pre ++ r.1 ∧ (∀ c ∈ pre, p c = true) ∧ r.2 = caps := by
  simp only [Re.results, List.mem_map, mem_starRes]
  constructor
  · rintro ⟨t, ⟨pre, hs, hp⟩, rfl⟩
    exact ⟨pre, hs, hp, rfl⟩
  · rintro ⟨pre, hs, hp, hr⟩
    exact ⟨r.1, ⟨pre, hs, hp⟩, Prod.ext rfl hr.symm⟩

theorem mem_results_cap_opt_lit {i : Nat} {c : Char} {s : Str} {caps : List Str}
    {r : Str × List Str} :
    r ∈ (Re.cap i (Re.opt (Re.lit c))).results s caps ↔
      ∃ pre, s = pre ++ r.1 ∧ (pre = [c] ∨ pre = []) ∧ r.2 = caps.set i pre := by
  simp only [Re.results, List.mem_map, List.mem_append, List.mem_singleton]
  constructor
  · rintro ⟨q, hq | rfl, rfl⟩
    · have hq2 := (mem_results_lit (c := c)).mp (by simpa [Re.results] using hq)
      obtain ⟨h1, h2⟩ := hq2
      refine ⟨[c], by simpa using h1, Or.inl rfl, ?_⟩
      subst h1
      simp [h2]
    · exact ⟨[], rfl, Or.inr rfl, by simp⟩
  · rintro ⟨pre, hs, hpre | hpre, hr⟩
    · subst hpre
      refine ⟨(r.1, caps), Or.inl ?_, ?_⟩
      · have := (@mem_results_lit c s caps (r.1, caps)).mpr
          ⟨by simpa using hs, rfl⟩
        simpa [Re.results] using this
      · subst hs
        apply Prod.ext
        · rfl
        · simp [hr]
    · subst hpre
      refine ⟨(s, caps), Or.inr rfl, ?_⟩
      simp only [List.nil_append] at hs
      apply Prod.ext
      · exact hs
      · simp [hr]

theorem mem_results_expression2 {s : Str} {caps : List Str} {r : Str × List Str} :
    r ∈ expression2.results s caps ↔
      ∃ c1 w c2 c3 c4, SinkShape s c1 w c2 c3 c4 r.1 ∧
        r.2 = (((caps.set 1 c1).set 2 c2).set 3 c3).set 4 c4 := by
  unfold expression2 SinkShape
  simp only [mem_results_seq, mem_results_cap_opt_lit, mem_results_cap_starc,
    mem_results_starc, mem_results_lit]
  constructor
  · rintro ⟨q1, ⟨c1, h1, hc1, e1⟩, q2, ⟨w, h2, hw, e2⟩, q3, ⟨c2, h3, hc2, e3⟩,
      q4, ⟨h4, e4⟩, q5, ⟨h5, e5⟩, q6, ⟨c3, h6, hc3, e6⟩, q7, ⟨h7, e7⟩,
      q8, ⟨c4, h8, hc4, e8⟩, h9, e9⟩
    refine ⟨c1, w, c2, c3, c4, ⟨?_, hc1, hw, hc2, hc3, hc4⟩, ?_⟩
    · rw [h1, h2, h3, h4, h5, h6, h7, h8, h9]
    · rw [e9, e8, e7, e6, e5, e4, e3, e2, e1]
  · rintro ⟨c1, w, c2, c3, c4, ⟨hs, hc1, hw, hc2, hc3, hc4⟩, hr⟩
    refine ⟨(w ++ (c2 ++ ('.' :: ' ' :: (c3 ++ ('[' :: (c4 ++ (']' :: r.1)))))), caps.set 1 c1),
      ⟨c1, hs, hc1, rfl⟩,
      (c2 ++ ('.' :: ' ' :: (c3 ++ ('[' :: (c4 ++ (']' :: r.1))))), caps.set 1 c1),
      ⟨w, rfl, hw, rfl⟩,
      ('.' :: ' ' :: (c3 ++ ('[' :: (c4 ++ (']' :: r.1)))), (caps.set 1 c1).set 2 c2),
      ⟨c2, rfl, hc2, rfl⟩,
      (' ' :: (c3 ++ ('[' :: (c4 ++ (']' :: r.1)))), (caps.set 1 c1).set 2 c2),
      ⟨rfl, rfl⟩,
      ((c3 ++ ('[' :: (c4 ++ (']' :: r.1)))), (caps.set 1 c1).set 2 c2),
      ⟨rfl, rfl⟩,
      (('[' :: (c4 ++ (']' :: r.1))), ((caps.set 1 c1).set 2 c2).set 3 c3),
      ⟨c3, rfl, hc3, rfl⟩,
      ((c4 ++ (']' :: r.1)), ((caps.set 1 c1).set 2 c2).set 3 c3),
      ⟨rfl, rfl⟩,
      ((']' :: r.1), (((caps.set 1 c1).set 2 c2).set 3 c3).set 4 c4),
      ⟨c4, rfl, hc4, rfl⟩, rfl, hr⟩

theorem matchAt_expression2_sound {s : Str} {r : Str × List Str}
    (h : matchAt expression2 4 s = some r) :
    ∃ c1 w c2 c3 c4, SinkShape s c1 w c2 c3 c4 r.1 ∧
      r.2 = submatches (s.take (s.length - r.1.length)) c1 c2 c3 c4 := by
  unfold matchAt at h
  split at h
  · exact absurd h (by simp)
  · rename_i q qs hq
    have hmem : q ∈ expression2.results s (List.replicate (4 + 1) []) := by
      rw [hq]; exact List.mem_cons_self _ _
    obtain ⟨c1, w, c2, c3, c4, hshape, hcaps⟩ := mem_results_expression2.mp hmem
    simp only [Option.some.injEq] at h
    subst h
    refine ⟨c1, w, c2, c3, c4, hshape, ?_⟩
    simp only [hcaps]
    simp [submatches, List.replicate]

theorem matchAt_expression2_complete {s c1 w c2 c3 c4 t : Str}
    (h : SinkShape s c1 w c2 c3 c4 t) : (matchAt expression2 4 s).isSome = true := by
  have hmem : (t, (((((List.replicate (4 + 1) ([] : Str)).set 1 c1).set 2 c2).set 3 c3).set 4 c4))
      ∈ expression2.results s (List.replicate (4 + 1) []) :=
    mem_results_expression2.mpr ⟨c1, w, c2, c3, c4, h, rfl⟩
  unfold matchAt
  split
  · rename_i hq
    rw [hq] at hmem
    exact absurd hmem (List.not_mem_nil _)
  · rfl

theorem FindStringSubmatch_some {re : Re} {n : Nat} {s : Str} {m : List Str}
    (h : FindStringSubmatch re n s = some m) :
    ∃ u v r, s = u ++ v ∧ matchAt re n v = some r ∧ r.2 = m ∧
      ∀ u2 v2, s = u2 ++ v2 → u2.length < u.length → matchAt re n v2 = none := by
  induction s with
  | nil =>
    simp only [FindStringSubmatch, Option.map_eq_some'] at h
    obtain ⟨r, hr, hm⟩ := h
    exact ⟨[], [], r, rfl, hr, hm, fun u2 v2 _ hlt => absurd hlt (Nat.not_lt_zero _)⟩
  | cons c s ih =>
    simp only [FindStringSubmatch] at h
    split at h
    · rename_i r hr
      simp only [Option.some.injEq] at h
      exact ⟨[], c :: s, r, rfl, hr, h, fun u2 v2 _ hlt => absurd hlt (Nat.not_lt_zero _)⟩
    · rename_i hnone
      obtain ⟨u, v, r, hs, hr, hm, hmin⟩ := ih h
      refine ⟨c :: u, v, r, by rw [hs]; rfl, hr, hm, ?_⟩
      intro u2 v2 h2 hlt
      cases u2 with
      | nil =>
        simp only [List.nil_append] at h2
        rw [← h2]; exact hnone
      | cons x xs =>
        simp only [List.cons_append, List.cons.injEq] at h2
        exact hmin xs v2 h2.2 (by simpa using hlt)

theorem FindStringSubmatch_none {re : Re} {n : Nat} {s : Str} :
    FindStringSubmatch re n s = none ↔ ∀ u v, s = u ++ v → matchAt re n v = none := by
  induction s with
  | nil =>
    simp only [FindStringSubmatch, Option.map_eq_none']
    constructor
    · intro h u v huv
      have := List.append_eq_nil.mp huv.symm
      rw [this.2]; exact h
    · intro h
      exact h [] [] rfl
  | cons c s ih =>
    simp only [FindStringSubmatch]
    constructor
    · intro h u v huv
      split at h
      · exact absurd h (by simp)
      · rename_i hnone
        cases u with
        | nil =>
          simp only [List.nil_append] at huv
          rw [← huv]; exact hnone
        | cons x xs =>
          simp only [List.cons_append, List.cons.injEq] at huv
          exact ih.mp h xs v huv.2
    · intro h
      have h0 := h [] (c :: s) rfl
      rw [h0]
      exact ih.mpr fun u v huv => h (c :: u) v (by rw [huv]; rfl)

/-- What a successful search of a sink line with `expression2` returns: the
leftmost start (after `u`) at which the line reads as a sink, and its parts. -/
theorem FindStringSubmatch_expression2 {s : Str} {m : List Str}
    (h : FindStringSubmatch expression2 4 s = some m) :
    ∃ u v c1 w c2 c3 c4 t whole, s = u ++ v ∧ SinkShape v c1 w c2 c3 c4 t ∧
      m = submatches whole c1 c2 c3 c4 ∧
      ∀ u2 v2, s = u2 ++ v2 → u2.length < u.length → matchAt expression2 4 v2 = none := by
  obtain ⟨u, v, r, hs, hr, hm, hmin⟩ := FindStringSubmatch_some h
  obtain ⟨c1, w, c2, c3, c4, hshape, hcaps⟩ := matchAt_expression2_sound hr
  exact ⟨u, v, c1, w, c2, c3, c4, r.1, v.take (v.length - r.1.length), hs, hshape,
    by rw [← hm, hcaps], hmin⟩

/-! ## The separator `. ` of a sink line -/

/-- Two readings of one text around a `. `: the same place, or one `. `
 lies after the other. -/
theorem sep_split {A L b tail : Str}
    (h : A ++ '.' :: ' ' :: b = L ++ '.' :: ' ' :: tail) :
    (A = L ∧ b = tail) ∨ (∃ z, L = A ++ '.' :: ' ' :: z ∧ b = z ++ '.' :: ' ' :: tail) ∨
      (∃ z, A = L ++ '.' :: ' ' :: z ∧ tail = z ++ '.' :: ' ' :: b) := by
  rcases List.append_eq_append_iff.mp h with ⟨z, hL, hb⟩ | ⟨z, hA, ht⟩
  · cases z with
    | nil =>
      left
      simp only [List.append_nil] at hL
      simp only [List.nil_append, List.cons.injEq, true_and] at hb
      exact ⟨hL.symm, hb⟩
    | cons z0 z1 =>
      simp only [List.cons_append, List.cons.injEq] at hb
      obtain ⟨rfl, hb⟩ := hb
      cases z1 with
      | nil =>
        simp only [List.nil_append, List.cons.injEq] at hb
        exact absurd hb.1 (by decide)
      | cons z2 z3 =>
        simp only [List.cons_append, List.cons.injEq] at hb
        obtain ⟨rfl, hb⟩ := hb
        right; left
        exact ⟨z3, hL, hb⟩
  · cases z with
    | nil =>
      left
      simp only [List.append_nil] at hA
      simp only [List.nil_append, List.cons.injEq, true_and] at ht
      exact ⟨hA, ht.symm⟩
    | cons z0 z1 =>
      simp only [List.cons_append, List.cons.injEq] at ht
      obtain ⟨rfl, ht⟩ := ht
      cases z1 with
      | nil =>
        simp only [List.nil_append, List.cons.injEq] at ht
        exact absurd ht.1 (by decide)
      | cons z2 z3 =>
        simp only [List.cons_append, List.cons.injEq] at ht
        obtain ⟨rfl, ht⟩ := ht
        right; right
        exact ⟨z3, hA, ht⟩

theorem reSpace_not_dot {c : Char} (h : reSpace c = true) : c ≠ '.' := by
  rintro rfl
  exact absurd h (by decide)

theorem reDigit_not_dot {c : Char} (h : reDigit c = true) : c ≠ '.' := by
  rintro rfl
  exact absurd h (by decide)

theorem reSpace_not_star {c : Char} (h : reSpace c = true) : c ≠ '*' := by
  rintro rfl
  exact absurd h (by decide)

theorem reDigit_not_star {c : Char} (h : reDigit c = true) : c ≠ '*' := by
  rintro rfl
  exact absurd h (by decide)

theorem reSpace_not_digit {c : Char} (h : reSpace c = true) : reDigit c = false := by
  unfold reSpace at h
  unfold reDigit
  simp only [Bool.or_eq_true, beq_iff_eq] at h
  simp only [Bool.and_eq_false_imp, decide_eq_true_eq, decide_eq_false_iff_not, not_le]
  omega

/-- No `.` in what `\*?\s*[0-9]*` matches. -/
theorem head_no_dot {c1 w c2 : Str} (hc1 : c1 = ['*'] ∨ c1 = [])
    (hw : ∀ c ∈ w, reSpace c = true) (hc2 : ∀ c ∈ c2, reDigit c = true) :
    ∀ c ∈ c1 ++ (w ++ c2), c ≠ '.' := by
  intro c hc
  rcases List.mem_append.mp hc with h | h
  · rcases hc1 with rfl | rfl
    · rw [List.mem_singleton] at h
      rw [h]; decide
    · exact absurd h (List.not_mem_nil _)
  · rcases List.mem_append.mp h with h | h
    · exact reSpace_not_dot (hw c h)
    · exact reDigit_not_dot (hc2 c h)

/-- The search of a line whose first `. ` comes right after a text `x` that
`\*?\s*[0-9]*` matches: the match starts inside the text `a` before `x`,
uses that first `. `, and its name and volume are read from what follows. -/
theorem sink_key {line : Str} {m : List Str} {a c w d b : Str}
    (hnl : ∀ ch ∈ line, reDot ch = true)
    (h : FindStringSubmatch expression2 4 line = some m)
    (hline : line = a ++ ((c ++ (w ++ d)) ++ '.' :: ' ' :: b))
    (hc : c = ['*'] ∨ c = []) (hw : ∀ ch ∈ w, reSpace ch = true)
    (hd : ∀ ch ∈ d, reDigit ch = true)
    (hfirst : ∀ p q, a ++ (c ++ (w ++ d)) ≠ p ++ '.' :: ' ' :: q) :
    ∃ u a2 c1 w1 c2 c3 c4 t whole, a = u ++ a2 ∧
      c1 ++ (w1 ++ c2) = a2 ++ (c ++ (w ++ d)) ∧ b = c3 ++ '[' :: (c4 ++ ']' :: t) ∧
      m = submatches whole c1 c2 c3 c4 ∧ (c1 = ['*'] ∨ c1 = []) ∧
      (∀ ch ∈ w1, reSpace ch = true) ∧ (∀ ch ∈ c2, reDigit ch = true) := by
  obtain ⟨u, v, c1, w1, c2, c3, c4, t, whole, hs, ⟨hv, hc1, hw1, hc2, hc3, hc4⟩, hm, hmin⟩ :=
    FindStringSubmatch_expression2 h
  have e : (a ++ (c ++ (w ++ d))) ++ '.' :: ' ' :: b =
      (u ++ (c1 ++ (w1 ++ c2))) ++ '.' :: ' ' :: (c3 ++ '[' :: (c4 ++ ']' :: t)) := by
    have : line = (u ++ (c1 ++ (w1 ++ c2))) ++ '.' :: ' ' :: (c3 ++ '[' :: (c4 ++ ']' :: t)) := by
      rw [hs, hv]; simp only [List.append_assoc]
    rw [← this, hline]; simp only [List.append_assoc]
  -- the text after the first `. ` holds a name and a volume
  have hbshape : ∃ c5, b = c5 ++ '[' :: (c4 ++ ']' :: t) ∧ ∀ ch ∈ c5, reDot ch = true := by
    rcases sep_split e with ⟨_, hb⟩ | ⟨z, _, hb⟩ | ⟨z, hA, _⟩
    · exact ⟨c3, hb, hc3⟩
    · refine ⟨z ++ '.' :: ' ' :: c3, by rw [hb]; simp only [List.append_assoc, List.cons_append], ?_⟩
      intro ch hch
      apply hnl
      rw [hline, hb]
      simp only [List.mem_append, List.mem_cons] at hch ⊢
      tauto
    · exact absurd hA (hfirst _ _)
  obtain ⟨c5, hb5, hc5⟩ := hbshape
  have hcomp : (matchAt expression2 4 ((c ++ (w ++ d)) ++ '.' :: ' ' :: b)).isSome = true := by
    apply @matchAt_expression2_complete _ c w d c5 c4 t
    refine ⟨?_, hc, hw, hd, hc5, hc4⟩
    rw [hb5]; simp only [List.append_assoc]
  have hle : ¬ a.length < u.length := by
    intro hlt
    have := hmin a _ hline hlt
    rw [this] at hcomp
    exact absurd hcomp (by simp)
  -- the match starts inside `a`
  have hsplit : ∃ a2, a = u ++ a2 ∧ v = a2 ++ ((c ++ (w ++ d)) ++ '.' :: ' ' :: b) := by
    have e0 : a ++ ((c ++ (w ++ d)) ++ '.' :: ' ' :: b) = u ++ v := by rw [← hline, hs]
    rcases List.append_eq_append_iff.mp e0 with ⟨z, hu, hX⟩ | ⟨z, ha, hvz⟩
    · have hz : z = [] := by
        have hlen : u.length = a.length + z.length := by rw [hu]; simp
        have : z.length = 0 := by omega
        exact List.length_eq_zero.mp this
      subst hz
      simp only [List.append_nil] at hu
      simp only [List.nil_append] at hX
      exact ⟨[], by simp [hu], by simp [hX]⟩
    · exact ⟨z, ha, hvz⟩
  obtain ⟨a2, ha2, hva2⟩ := hsplit
  have e2 : (a2 ++ (c ++ (w ++ d))) ++ '.' :: ' ' :: b =
      (c1 ++ (w1 ++ c2)) ++ '.' :: ' ' :: (c3 ++ '[' :: (c4 ++ ']' :: t)) := by
    have : v = (c1 ++ (w1 ++ c2)) ++ '.' :: ' ' :: (c3 ++ '[' :: (c4 ++ ']' :: t)) := by
      rw [hv]; simp only [List.append_assoc]
    rw [← this, hva2]; simp only [List.append_assoc]
  rcases sep_split e2 with ⟨hy, hb⟩ | ⟨z, hy, _⟩ | ⟨z, hA, _⟩
  · exact ⟨u, a2, c1, w1, c2, c3, c4, t, whole, ha2, hy.symm, hb, hm, hc1, hw1, hc2⟩
  · exfalso
    have hdot : '.' ∈ c1 ++ (w1 ++ c2) := by
      rw [hy]; simp
    exact head_no_dot hc1 hw1 hc2 '.' hdot rfl
  · exfalso
    apply hfirst (u ++ (c1 ++ (w1 ++ c2))) z
    rw [ha2, List.append_assoc, hA]
    simp only [List.append_assoc]

/-! ## Lemmas on the steps of `retrieve_sinks` -/

theorem Split_ne_nil (sep : Char) (s : Str) : Split sep s ≠ [] := by
  cases s with
  | nil => simp [Split]
  | cons c s =>
    simp only [Split]
    split
    · simp
    · split <;> simp

theorem mem_Split {sep : Char} {s l : Str} (h : l ∈ Split sep s) :
    sep ∉ l ∧ ∀ c ∈ l, c ∈ s := by
  induction s generalizing l with
  | nil =>
    simp only [Split, List.mem_singleton] at h
    subst h
    simp
  | cons c s ih =>
    simp only [Split] at h
    split at h
    · rcases List.mem_cons.mp h with rfl | h
      · simp
      · obtain ⟨h1, h2⟩ := ih h
        exact ⟨h1, fun x hx => List.mem_cons_of_mem _ (h2 x hx)⟩
    · rename_i hne
      split at h
      · rename_i hnil
        exact absurd hnil (Split_ne_nil sep s)
      · rename_i l0 ls hsplit
        rcases List.mem_cons.mp h with rfl | h
        · obtain ⟨h1, h2⟩ := ih (l := l0) (by rw [hsplit]; exact List.mem_cons_self _ _)
          refine ⟨?_, ?_⟩
          · intro hmem
            rcases List.mem_cons.mp hmem with h0 | h0
            · exact hne h0.symm
            · exact h1 h0
          · intro x hx
            rcases List.mem_cons.mp hx with rfl | hx
            · exact List.mem_cons_self _ _
            · exact List.mem_cons_of_mem _ (h2 x hx)
        · obtain ⟨h1, h2⟩ := ih (l := l) (by rw [hsplit]; exact List.mem_cons_of_mem _ h)
          exact ⟨h1, fun x hx => List.mem_cons_of_mem _ (h2 x hx)⟩

theorem mem_TrimSpace {s : Str} {c : Char} (h : c ∈ TrimSpace s) : c ∈ s := by
  unfold TrimSpace at h
  rw [List.mem_reverse] at h
  have h1 := (List.dropWhile_sublist isSpace).subset h
  rw [List.mem_reverse] at h1
  exact (List.dropWhile_sublist isSpace).subset h1

theorem findKey_lt (lines : List Str) (idx key : Nat) (h : lines ≠ []) :
    findKey lines idx key < idx + lines.length := by
  induction lines generalizing idx key with
  | nil => exact absurd rfl h
  | cons v rest ih =>
    simp only [findKey, List.length_cons]
    split
    · omega
    · cases rest with
      | nil => simp only [findKey, List.length_nil]; omega
      | cons v2 rest2 =>
        have := ih (idx + 1) idx (by simp)
        simp only [List.length_cons] at this ⊢
        omega

theorem findKey_header (pre : List Str) (hdr : Str) (rest : List Str) (idx key : Nat)
    (hpre : ∀ l ∈ pre, Contains l sinksHeader = false)
    (hhdr : Contains hdr sinksHeader = true) :
    findKey (pre ++ hdr :: rest) idx key = idx + pre.length := by
  induction pre generalizing idx key with
  | nil => simp [findKey, hhdr]
  | cons v vs ih =>
    have hv : Contains v sinksHeader = false := hpre v (List.mem_cons_self _ _)
    simp only [List.cons_append, findKey, hv, Bool.false_eq_true, if_false, List.length_cons,
      List.append_eq]
    rw [ih (idx + 1) idx (fun l hl => hpre l (List.mem_cons_of_mem _ hl))]
    omega

theorem findKey_absent (lines : List Str) (idx key : Nat) (h : lines ≠ [])
    (hno : ∀ l ∈ lines, Contains l sinksHeader = false) :
    findKey lines idx key + 1 = idx + lines.length := by
  induction lines generalizing idx key with
  | nil => exact absurd rfl h
  | cons v rest ih =>
    have hv : Contains v sinksHeader = false := hno v (List.mem_cons_self _ _)
    simp only [findKey, hv, Bool.false_eq_true, if_false, List.length_cons]
    cases rest with
    | nil => simp [findKey]
    | cons v2 rest2 =>
      have := ih (idx + 1) idx (by simp) (fun l hl => hno l (List.mem_cons_of_mem _ hl))
      simp only [List.length_cons] at this ⊢
      omega

theorem collectSinks_block (body : List Str) (blank : Str) (rest sinks : List Str)
    (hbody : ∀ l ∈ body, TrimSpace l ≠ []) (hblank : TrimSpace blank = []) :
    collectSinks (body ++ blank :: rest) sinks = sinks ++ body.map TrimSpace := by
  induction body generalizing sinks with
  | nil => simp [collectSinks, hblank]
  | cons v vs ih =>
    have hv : TrimSpace v ≠ [] := hbody v (List.mem_cons_self _ _)
    simp only [List.cons_append, collectSinks, hv, if_false, List.map_cons, List.append_eq]
    rw [ih _ (fun l hl => hbody l (List.mem_cons_of_mem _ hl))]
    simp

theorem mem_collectSinks {lines sinks : List Str} {l : Str}
    (h : l ∈ collectSinks lines sinks) : l ∈ sinks ∨ ∃ v ∈ lines, l = TrimSpace v := by
  induction lines generalizing sinks with
  | nil => left; simpa [collectSinks] using h
  | cons v vs ih =>
    simp only [collectSinks] at h
    split at h
    · left; exact h
    · rcases ih h with h1 | ⟨v2, hv2, rfl⟩
      · rcases List.mem_append.mp h1 with h2 | h2
        · left; exact h2
        · right
          rw [List.mem_singleton] at h2
          exact ⟨v, List.mem_cons_self _ _, h2⟩
      · right
        exact ⟨v2, List.mem_cons_of_mem _ hv2, rfl⟩

theorem extractSinks_eq (sinks names nums : List Str) :
    extractSinks sinks names nums =
      if sinks.all sinkMatches = true then
        .ok (names ++ sinks.map sinkName, nums ++ sinks.map sinkId)
      else .error .indexOutOfRange := by
  induction sinks generalizing names nums with
  | nil => simp [extractSinks]
  | cons v vs ih =>
    cases hF : FindStringSubmatch expression2 4 v with
    | none =>
      simp [extractSinks, hF, sinkMatches]
    | some m =>
      obtain ⟨u, v2, c1, w, c2, c3, c4, t, whole, _, _, hm, _⟩ := FindStringSubmatch_expression2 hF
      subst hm
      have h1 : sinkMatches v = true := by simp [sinkMatches, hF]
      have h2 : sinkName v = c1 ++ c3 := by simp [sinkName, hF, submatches]
      have h3 : sinkId v = c2 := by simp [sinkId, hF, submatches]
      simp only [extractSinks, hF, submatches, List.getElem?_cons_succ, List.getElem?_cons_zero,
        List.all_cons, h1, Bool.true_and, List.map_cons, h2, h3]
      rw [ih]
      simp

/-- A line matches `expression2` exactly when, from some place on, it reads
as a sink line. -/
theorem sinkMatches_iff {s : Str} :
    sinkMatches s = true ↔ ∃ u v c1 w c2 c3 c4 t, s = u ++ v ∧ SinkShape v c1 w c2 c3 c4 t := by
  constructor
  · intro h
    unfold sinkMatches at h
    obtain ⟨m, hm⟩ := Option.isSome_iff_exists.mp h
    obtain ⟨u, v, c1, w, c2, c3, c4, t, _, hs, hshape, _, _⟩ := FindStringSubmatch_expression2 hm
    exact ⟨u, v, c1, w, c2, c3, c4, t, hs, hshape⟩
  · rintro ⟨u, v, c1, w, c2, c3, c4, t, hs, hshape⟩
    unfold sinkMatches
    cases hF : FindStringSubmatch expression2 4 s with
    | some m => rfl
    | none =>
      have hnone := FindStringSubmatch_none.mp hF u v hs
      have hsome := matchAt_expression2_complete hshape
      rw [hnone] at hsome
      exact absurd hsome (by simp)

theorem TrimSpace_decomp (s : Str) :
    ∃ p q, s = p ++ (TrimSpace s ++ q) ∧ (∀ c ∈ p, isSpace c = true) ∧
      (∀ c ∈ q, isSpace c = true) := by
  refine ⟨s.takeWhile isSpace, (((s.dropWhile isSpace).reverse).takeWhile isSpace).reverse,
    ?_, ?_, ?_⟩
  · unfold TrimSpace
    rw [← List.reverse_append, List.takeWhile_append_dropWhile, List.reverse_reverse,
      List.takeWhile_append_dropWhile]
  · intro c hc
    exact List.mem_takeWhile_imp hc
  · intro c hc
    rw [List.mem_reverse] at hc
    exact List.mem_takeWhile_imp hc

/-- Trimming a line keeps it a match of `expression2`. -/
theorem sinkMatches_TrimSpace {s : Str} (h : sinkMatches s = true) :
    sinkMatches (TrimSpace s) = true := by
  obtain ⟨u, v, c1, w, c2, c3, c4, t, hs, hv, hc1, hw, hc2, hc3, hc4⟩ := sinkMatches_iff.mp h
  obtain ⟨p, q, hpq, hp, hq⟩ := TrimSpace_decomp s
  have e1 : p ++ (TrimSpace s ++ q) =
      (u ++ (c1 ++ (w ++ c2))) ++ '.' :: (' ' :: (c3 ++ '[' :: (c4 ++ ']' :: t))) := by
    rw [← hpq, hs, hv]; simp only [List.append_assoc]
  have e2 : ∃ z, TrimSpace s ++ q = z ++ '.' :: (' ' :: (c3 ++ '[' :: (c4 ++ ']' :: t))) := by
    rcases List.append_eq_append_iff.mp e1 with ⟨z, _, hz⟩ | ⟨z, hz, hz2⟩
    · exact ⟨z, hz⟩
    · cases z with
      | nil => exact ⟨[], by simpa using hz2.symm⟩
      | cons z0 zs =>
        exfalso
        simp only [List.cons_append, List.cons.injEq] at hz2
        have : isSpace '.' = true := hp '.' (by rw [hz, ← hz2.1]; simp)
        exact absurd this (by decide)
  obtain ⟨z, hz⟩ := e2
  have e3 : TrimSpace s ++ q = (z ++ '.' :: (' ' :: (c3 ++ '[' :: c4)) ++ [']']) ++ t := by
    rw [hz]; simp only [List.append_assoc, List.cons_append, List.nil_append]
  have e4 : ∃ t2, TrimSpace s = z ++ '.' :: (' ' :: (c3 ++ '[' :: (c4 ++ ']' :: t2))) := by
    rcases List.append_eq_append_iff.mp e3 with ⟨y, hy, hy2⟩ | ⟨y, hy, _⟩
    · rcases List.eq_nil_or_concat y with rfl | ⟨y1, y2, rfl⟩
      · refine ⟨[], ?_⟩
        rw [List.append_nil] at hy
        rw [← hy]
        simp only [List.append_assoc, List.cons_append, List.nil_append]
      · exfalso
        have hlast : (z ++ '.' :: (' ' :: (c3 ++ '[' :: c4)) ++ [']']).getLast? =
            (TrimSpace s ++ y1.concat y2).getLast? := by rw [hy]
        rw [List.concat_eq_append, ← List.append_assoc,
          List.getLast?_concat, List.getLast?_concat] at hlast
        simp only [Option.some.injEq] at hlast
        have : isSpace ']' = true := hq ']' (by rw [hy2, hlast]; simp)
        exact absurd this (by decide)
    · exact ⟨y, by rw [hy]; simp only [List.append_assoc, List.cons_append, List.nil_append]⟩
  obtain ⟨t2, ht2⟩ := e4
  exact sinkMatches_iff.mpr ⟨z, _, [], [], [], c3, c4, t2, ht2,
    ⟨rfl, Or.inr rfl, by simp, by simp, hc3, hc4⟩⟩

theorem Contains_iff {s sub : Str} :
    Contains s sub = true ↔ ∃ p q, s = p ++ (sub ++ q) := by
  induction s with
  | nil =>
    simp only [Contains, List.isEmpty_iff]
    constructor
    · rintro rfl
      exact ⟨[], [], rfl⟩
    · rintro ⟨p, q, h⟩
      have := List.append_eq_nil.mp h.symm
      exact (List.append_eq_nil.mp this.2).1
  | cons c s ih =>
    simp only [Contains, Bool.or_eq_true, List.isPrefixOf_iff_prefix, ih]
    constructor
    · rintro (⟨q, hq⟩ | ⟨p, q, h⟩)
      · exact ⟨[], q, by simpa using hq.symm⟩
      · exact ⟨c :: p, q, by rw [h]; rfl⟩
    · rintro ⟨p, q, h⟩
      cases p with
      | nil => left; exact ⟨q, by simpa using h.symm⟩
      | cons x xs =>
        right
        simp only [List.cons_append, List.cons.injEq] at h
        exact ⟨xs, q, h.2⟩

theorem reDot_of_ne_newline {c : Char} (h : c ≠ newline) : reDot c = true := by
  unfold reDot
  simp only [bne_iff_ne, ne_eq]
  intro h10
  apply h
  have : Char.ofNat c.toNat = c := Char.ofNat_toNat c
  rw [← this, h10]
  rfl

theorem matchAt_expression1 (c : Char) (s : Str) :
    matchAt expression1 0 (c :: s) = if c ∈ glyphs then some (s, [[c]]) else none := by
  by_cases h1 : c = '├'
  · subst h1; simp [matchAt, expression1, Re.results, glyphs]
  · by_cases h2 : c = '─'
    · subst h2; simp [matchAt, expression1, Re.results, glyphs]
    · by_cases h3 : c = '│'
      · subst h3; simp [matchAt, expression1, Re.results, glyphs]
      · by_cases h4 : c = '└'
        · subst h4; simp [matchAt, expression1, Re.results, glyphs]
        · simp [matchAt, expression1, Re.results, glyphs, h1, h2, h3, h4]

/-- The removal of the glyphs is the removal of every glyph character. -/
theorem replaceLoop_expression1 (s : Str) :
    replaceLoop expression1 s 0 = s.filter fun c => !decide (c ∈ glyphs) := by
  induction s with
  | nil => simp [replaceLoop]
  | cons c s ih =>
    by_cases hc : c ∈ glyphs
    · simp [replaceLoop, matchAt_expression1, hc, ih]
    · simp [replaceLoop, matchAt_expression1, hc, ih]

theorem mem_ReplaceAllStringEmpty {out : Str} {c : Char}
    (h : c ∈ ReplaceAllStringEmpty expression1 out) : c ∈ out ∧ c ∉ glyphs := by
  unfold ReplaceAllStringEmpty at h
  rw [replaceLoop_expression1, List.mem_filter] at h
  exact ⟨h.1, by simpa using h.2⟩

/-- The second loop always runs: the slice `lines[key+1:]` is in range, and
every collected line is a trimmed line of the cleaned status text. -/
theorem sinksBlock_spec (out : Str) :
    ∃ sinks, sinksBlock out = some sinks ∧
      retrieve_sinks (some out) = extractSinks sinks [] [] ∧
      ∀ l ∈ sinks, (∀ ch ∈ l, reDot ch = true) ∧
        (∀ ch ∈ l, ch ∈ out ∧ ch ∉ glyphs) := by
  have hlt := findKey_lt (statusLines out) 0 0 (Split_ne_nil _ _)
  have hle : findKey (statusLines out) 0 0 + 1 ≤ (statusLines out).length := by omega
  refine ⟨collectSinks ((statusLines out).drop (findKey (statusLines out) 0 0 + 1)) [], ?_, ?_, ?_⟩
  · simp only [sinksBlock, hle, if_true]
  · simp only [retrieve_sinks, sinksBlock, hle, if_true]
  · intro l hl
    rcases mem_collectSinks hl with h0 | ⟨v, hv, rfl⟩
    · exact absurd h0 (List.not_mem_nil _)
    · have hv2 : v ∈ Split newline (ReplaceAllStringEmpty expression1 out) :=
        List.mem_of_mem_drop hv
      obtain ⟨hsep, hsub⟩ := mem_Split hv2
      refine ⟨?_, ?_⟩
      · intro ch hch
        apply reDot_of_ne_newline
        rintro rfl
        exact hsep (mem_TrimSpace hch)
      · intro ch hch
        exact mem_ReplaceAllStringEmpty (hsub ch (mem_TrimSpace hch))

theorem sinkMatches_nil : sinkMatches [] = false := by decide

/-- The parts of the match behind `sinkName` and `sinkId`. -/
theorem sinkName_sinkId_shape {line : Str} (h : sinkMatches line = true) :
    ∃ u v c1 w c2 c3 c4 t, line = u ++ v ∧ SinkShape v c1 w c2 c3 c4 t ∧
      sinkName line = c1 ++ c3 ∧ sinkId line = c2 := by
  unfold sinkMatches at h
  obtain ⟨m, hm⟩ := Option.isSome_iff_exists.mp h
  obtain ⟨u, v, c1, w, c2, c3, c4, t, whole, hs, hshape, hsub, _⟩ :=
    FindStringSubmatch_expression2 hm
  refine ⟨u, v, c1, w, c2, c3, c4, t, hs, hshape, ?_, ?_⟩
  · simp [sinkName, hm, hsub, submatches]
  · simp [sinkId, hm, hsub, submatches]

/-! ## The id and the marker of a sink line -/

theorem digits_suffix_unique {p c2 a2 d : Str} (h : p ++ c2 = a2 ++ d)
    (hp : ∀ ch ∈ p, reDigit ch = false) (hc2 : ∀ ch ∈ c2, reDigit ch = true)
    (hd : ∀ ch ∈ d, reDigit ch = true)
    (ha2 : ∀ x, a2.getLast? = some x → reDigit x = false) : c2 = d := by
  rcases List.append_eq_append_iff.mp h with ⟨z, hz1, hz2⟩ | ⟨z, hz1, hz2⟩
  · rcases List.eq_nil_or_concat z with rfl | ⟨z1, z2, rfl⟩
    · simpa using hz2
    · exfalso
      have hlast : a2.getLast? = some z2 := by
        rw [hz1, List.concat_eq_append, ← List.append_assoc, List.getLast?_concat]
      have h1 := ha2 z2 hlast
      have h2 := hc2 z2 (by rw [hz2]; simp)
      rw [h1] at h2
      exact absurd h2 (by simp)
  · cases z with
    | nil => simpa using hz2.symm
    | cons z0 zs =>
      exfalso
      have h1 := hp z0 (by rw [hz1]; simp)
      have h2 := hd z0 (by rw [hz2]; simp)
      rw [h1] at h2
      exact absurd h2 (by simp)

/-- The id of a matching line is the run of digits right before its first `. `. -/
theorem sinkId_of_first_sep {line a d b : Str}
    (hnl : ∀ ch ∈ line, reDot ch = true) (hm : sinkMatches line = true)
    (hline : line = a ++ (d ++ '.' :: ' ' :: b))
    (hd : ∀ ch ∈ d, reDigit ch = true)
    (ha : ∀ x, a.getLast? = some x → reDigit x = false)
    (hfirst : Contains (a ++ d) ". ".toList = false) : sinkId line = d := by
  unfold sinkMatches at hm
  obtain ⟨m, hF⟩ := Option.isSome_iff_exists.mp hm
  have hfirst2 : ∀ p q, a ++ ([] ++ ([] ++ d)) ≠ p ++ '.' :: ' ' :: q := by
    intro p q hpq
    have : Contains (a ++ d) ". ".toList = true := by
      rw [Contains_iff]
      exact ⟨p, q, by simpa using hpq⟩
    rw [this] at hfirst
    exact absurd hfirst (by simp)
  obtain ⟨u, a2, c1, w1, c2, c3, c4, t, whole, hau, hhead, _, hsub, hc1, hw1, hc2⟩ :=
    sink_key (c := []) (w := []) hnl hF (by simpa using hline) (Or.inr rfl) (by simp) hd hfirst2
  have hid : sinkId line = c2 := by simp [sinkId, hF, hsub, submatches]
  rw [hid]
  have hhead2 : (c1 ++ w1) ++ c2 = a2 ++ d := by simpa using hhead
  apply digits_suffix_unique hhead2 _ hc2 hd
  · intro x hx
    apply ha
    have hne : a2 ≠ [] := by
      rintro rfl
      simp at hx
    rw [hau, List.getLast?_append_of_ne_nil _ hne]
    exact hx
  · intro ch hch
    rcases List.mem_append.mp hch with h | h
    · rcases hc1 with rfl | rfl
      · rw [List.mem_singleton] at h
        rw [h]; decide
      · exact absurd h (List.not_mem_nil _)
    · exact reSpace_not_digit (hw1 ch h)

/-- The name of a line that reads as a sink line from its very start: it
begins with the marker when the line does, and otherwise begins with `*`
only when the name text itself does. -/
theorem sinkName_marker {line c w d b : Str}
    (hnl : ∀ ch ∈ line, reDot ch = true) (hm : sinkMatches line = true)
    (hline : line = c ++ (w ++ (d ++ '.' :: ' ' :: b)))
    (hc : c = ['*'] ∨ c = []) (hw : ∀ ch ∈ w, reSpace ch = true)
    (hd : ∀ ch ∈ d, reDigit ch = true) :
    (c = ['*'] → (sinkName line).head? = some '*') ∧
      (c = [] → ((sinkName line).head? = some '*' ↔ b.head? = some '*')) := by
  unfold sinkMatches at hm
  obtain ⟨m, hF⟩ := Option.isSome_iff_exists.mp hm
  have hfirst : ∀ p q, [] ++ (c ++ (w ++ d)) ≠ p ++ '.' :: ' ' :: q := by
    intro p q hpq
    have hdot : '.' ∈ c ++ (w ++ d) := by
      rw [List.nil_append] at hpq
      rw [hpq]; simp
    exact head_no_dot hc hw hd '.' hdot rfl
  obtain ⟨u, a2, c1, w1, c2, c3, c4, t, whole, hau, hhead, hb, hsub, hc1, hw1, hc2⟩ :=
    sink_key (a := []) hnl hF (by simpa using hline) hc hw hd hfirst
  have ha2 : a2 = [] := (List.append_eq_nil.mp hau.symm).2
  subst ha2
  simp only [List.nil_append] at hhead
  have hname : sinkName line = c1 ++ c3 := by simp [sinkName, hF, hsub, submatches]
  have hnostar : ∀ {x y : Str}, (∀ ch ∈ x, reSpace ch = true) → (∀ ch ∈ y, reDigit ch = true) →
      '*' ∉ x ++ y := by
    intro x y hx hy hmem
    rcases List.mem_append.mp hmem with h | h
    · exact reSpace_not_star (hx _ h) rfl
    · exact reDigit_not_star (hy _ h) rfl
  have hcc : c1 = c := by
    rcases hc1 with rfl | rfl <;> rcases hc with rfl | rfl
    · rfl
    · exfalso
      apply hnostar hw hd
      rw [List.nil_append] at hhead
      rw [← hhead]; simp
    · exfalso
      apply hnostar hw1 hc2
      rw [List.nil_append] at hhead
      rw [hhead]; simp
    · rfl
  subst hcc
  rw [hname]
  refine ⟨?_, ?_⟩
  · rintro rfl
    rfl
  · rintro rfl
    rw [hb]
    cases c3 with
    | nil => simp
    | cons x xs => simp

/-- A successful `retrieve_sinks`: every collected line matched, and the
names and ids are read from the collected lines in order. -/
theorem retrieve_sinks_ok {out : Str} {names nums : List Str}
    (h : retrieve_sinks (some out) = .ok (names, nums)) :
    ∃ sinks, sinksBlock out = some sinks ∧ names = sinks.map sinkName ∧
      nums = sinks.map sinkId ∧
      ∀ l ∈ sinks, sinkMatches l = true ∧ ∀ ch ∈ l, reDot ch = true := by
  obtain ⟨sinks, hblock, hret, hlines⟩ := sinksBlock_spec out
  have hex := extractSinks_eq sinks [] []
  simp only [List.nil_append] at hex
  rw [hret, hex] at h
  by_cases hall : sinks.all sinkMatches = true
  · rw [if_pos hall] at h
    simp only [Except.ok.injEq, Prod.mk.injEq] at h
    exact ⟨sinks, hblock, h.1.symm, h.2.symm,
      fun l hl => ⟨List.all_eq_true.mp hall l hl, (hlines l hl).1⟩⟩
  · rw [if_neg hall] at h
    exact absurd h (by simp)

/-! ## Lemmas on the selector -/

theorem tuiItems_spec (nums : List Str) (names : List Str) (k0 : Nat)
    (h : k0 + names.length ≤ nums.length) :
    ∃ items, tuiItems nums names k0 = some items ∧ items.length = names.length ∧
      ∀ (j : Nat) (name id : Str), names[j]? = some name → nums[k0 + j]? = some id →
        items[j]? = some { name := name, id := id } := by
  induction names generalizing k0 with
  | nil => exact ⟨[], rfl, rfl, by simp⟩
  | cons v rest ih =>
    simp only [List.length_cons] at h
    have hk : k0 < nums.length := by omega
    obtain ⟨items, hitems, hlen, hget⟩ := ih (k0 + 1) (by omega)
    refine ⟨{ name := v, id := nums[k0] } :: items, ?_, by simp [hlen], ?_⟩
    · simp [tuiItems, List.getElem?_eq_getElem hk, hitems]
    · intro j name id hname hid
      cases j with
      | zero =>
        simp only [List.getElem?_cons_zero, Option.some.injEq] at hname
        simp only [Nat.add_zero, List.getElem?_eq_getElem hk, Option.some.injEq] at hid
        simp [hname, hid]
      | succ j =>
        simp only [List.getElem?_cons_succ] at hname ⊢
        exact hget j name id hname (by rw [← hid]; congr 1; omega)

/-! ## The status parser: the claims -/

/-- C1. When the first line of the cleaned status text that contains `Sinks:`
is followed by N lines that each match `expression2` and then by a line that
is empty after trimming, `retrieve_sinks` returns without error exactly N
names and N ids; the k-th name and id are the ones read from the k-th of
those lines (trimmed), in the original order, whatever follows the blank
line. For N = 0 both lists are empty. -/
theorem retrieve_sinks_block (out : Str) (pre : List Str) (hdr : Str) (body : List Str)
    (blank : Str) (rest : List Str)
    (hlines : statusLines out = pre ++ hdr :: (body ++ blank :: rest))
    (hpre : ∀ l ∈ pre, Contains l sinksHeader = false)
    (hhdr : Contains hdr sinksHeader = true)
    (hbody : ∀ l ∈ body, sinkMatches l = true)
    (hblank : TrimSpace blank = []) :
    ∃ names nums, retrieve_sinks (some out) = .ok (names, nums) ∧
      names.length = body.length ∧ nums.length = body.length ∧
      (body = [] → names = [] ∧ nums = []) ∧
      ∀ (k : Nat) (l : Str), body[k]? = some l →
        names[k]? = some (sinkName (TrimSpace l)) ∧ nums[k]? = some (sinkId (TrimSpace l)) ∧
        ∃ u v c1 w c2 c3 c4 t, TrimSpace l = u ++ v ∧ SinkShape v c1 w c2 c3 c4 t ∧
          sinkName (TrimSpace l) = c1 ++ c3 ∧ sinkId (TrimSpace l) = c2 := by
  have htrim : ∀ l ∈ body, sinkMatches (TrimSpace l) = true :=
    fun l hl => sinkMatches_TrimSpace (hbody l hl)
  have hne : ∀ l ∈ body, TrimSpace l ≠ [] := by
    intro l hl h0
    have := htrim l hl
    rw [h0, sinkMatches_nil] at this
    exact absurd this (by simp)
  have hkey : findKey (statusLines out) 0 0 = pre.length := by
    rw [hlines, findKey_header pre hdr _ 0 0 hpre hhdr]; simp
  have hblock : sinksBlock out = some (body.map TrimSpace) := by
    have hle : pre.length + 1 ≤ (statusLines out).length := by
      rw [hlines]; simp
    have hdrop : (statusLines out).drop (pre.length + 1) = body ++ blank :: rest := by
      rw [hlines]
      have : pre ++ hdr :: (body ++ blank :: rest) = (pre ++ [hdr]) ++ (body ++ blank :: rest) := by
        simp
      rw [this, List.drop_left' (by simp)]
    simp only [sinksBlock, hkey, hle, if_true, hdrop]
    rw [collectSinks_block body blank rest [] hne hblank]
    simp
  have hall : (body.map TrimSpace).all sinkMatches = true := by
    rw [List.all_eq_true]
    intro x hx
    obtain ⟨l, hl, rfl⟩ := List.mem_map.mp hx
    exact htrim l hl
  refine ⟨body.map fun l => sinkName (TrimSpace l), body.map fun l => sinkId (TrimSpace l),
    ?_, by simp, by simp, ?_, ?_⟩
  · simp only [retrieve_sinks, hblock]
    rw [extractSinks_eq, if_pos hall]
    simp [List.map_map, Function.comp_def]
  · rintro rfl
    simp
  · intro k l hk
    refine ⟨by simp [List.getElem?_map, hk], by simp [List.getElem?_map, hk], ?_⟩
    exact sinkName_sinkId_shape (htrim l (List.mem_iff_getElem?.mpr ⟨k, hk⟩))

/-- C1 at `sampleStatus`: two sink lines between the first `Sinks:` line and
the blank line; the video section after it adds nothing. -/
theorem retrieve_sinks_block_witness :
    ∃ names nums, retrieve_sinks (some sampleStatus) = .ok (names, nums) ∧
      names.length = 2 ∧ nums.length = 2 :=
  have h := retrieve_sinks_block sampleStatus ["Audio".toList] "  Sinks:".toList
    ["   *   46. Built-in Audio [vol: 0.40]".toList, "       47. HDMI [vol: 1.00]".toList]
    " ".toList
    ["  Sources:".toList, "   *   48. Mic [vol: 1.00]".toList, [], "Video".toList,
      "  Sinks:".toList, "       60. Cam [vol: 1.00]".toList, []]
    (by decide) (by decide) (by decide) (by decide) (by decide)
  h.imp fun _ h2 => h2.imp fun _ h3 => ⟨h3.1, h3.2.1, h3.2.2.1⟩

/-- C2, as stated, fails: for the text `Sinks:`, `  * 1. Speakers [vol: 0.50]`,
blank line (with or without a line feed after the blank line) the result is
not the single name `*Speakers` with id `1`. -/
theorem speakers_name_not_bare :
    retrieve_sinks (some speakersStatus) ≠ .ok (["*Speakers".toList], ["1".toList]) ∧
    retrieve_sinks (some "Sinks:\n  * 1. Speakers [vol: 0.50]\n".toList) ≠
      .ok (["*Speakers".toList], ["1".toList]) := by
  decide

/-- C2, amended. For the text `Sinks:`, `  * 1. Speakers [vol: 0.50]`, blank
line, `retrieve_sinks` returns exactly one name and one id: the id is `1` and
the name is `*Speakers ` - the marker joined directly to the name text, which
runs up to the `[` and so keeps the space before it. -/
theorem speakers_parse :
    retrieve_sinks (some speakersStatus) = .ok (["*Speakers ".toList], ["1".toList]) ∧
    retrieve_sinks (some "Sinks:\n  * 1. Speakers [vol: 0.50]\n".toList) =
      .ok (["*Speakers ".toList], ["1".toList]) := by
  decide

/-- C4. The sinks block is always collected, and `retrieve_sinks` panics
(index out of range, no list returned) exactly when some collected line does
not match `expression2`; otherwise it returns one name and one id for every
collected line, never fewer. A line without `. `, without `[` or without `]`
does not match. -/
theorem retrieve_sinks_aborts_iff (out : Str) :
    ∃ sinks, sinksBlock out = some sinks ∧
      (retrieve_sinks (some out) = .error .indexOutOfRange ↔
        ∃ l ∈ sinks, sinkMatches l = false) ∧
      ((∀ l ∈ sinks, sinkMatches l = true) →
        retrieve_sinks (some out) = .ok (sinks.map sinkName, sinks.map sinkId)) ∧
      (∀ names nums, retrieve_sinks (some out) = .ok (names, nums) →
        names.length = sinks.length ∧ nums.length = sinks.length ∧
        ∀ l ∈ sinks, sinkMatches l = true) ∧
      (∀ l : Str, (Contains l ". ".toList = false ∨ '[' ∉ l ∨ ']' ∉ l) →
        sinkMatches l = false) := by
  obtain ⟨sinks, hblock, hret, _⟩ := sinksBlock_spec out
  have hex := extractSinks_eq sinks [] []
  simp only [List.nil_append] at hex
  refine ⟨sinks, hblock, ?_, ?_, ?_, ?_⟩
  · rw [hret, hex]
    by_cases hall : sinks.all sinkMatches = true
    · rw [if_pos hall]
      simp only [reduceCtorEq, false_iff, not_exists, not_and, Bool.not_eq_false]
      exact fun l hl => List.all_eq_true.mp hall l hl
    · rw [if_neg hall]
      simp only [true_iff]
      rw [List.all_eq_true] at hall
      push_neg at hall
      obtain ⟨l, hl, hm⟩ := hall
      exact ⟨l, hl, by simpa using hm⟩
  · intro hall
    rw [hret, hex, if_pos (List.all_eq_true.mpr hall)]
  · intro names nums hok
    rw [hret, hex] at hok
    by_cases hall : sinks.all sinkMatches = true
    · rw [if_pos hall] at hok
      simp only [Except.ok.injEq, Prod.mk.injEq] at hok
      obtain ⟨rfl, rfl⟩ := hok
      exact ⟨by simp, by simp, fun l hl => List.all_eq_true.mp hall l hl⟩
    · rw [if_neg hall] at hok
      exact absurd hok (by simp)
  · intro l hl
    rw [Bool.eq_false_iff]
    intro hm
    obtain ⟨u, v, c1, w, c2, c3, c4, t, hs, hv, _⟩ := sinkMatches_iff.mp hm
    rcases hl with h | h | h
    · have : Contains l ". ".toList = true := by
        rw [Contains_iff]
        refine ⟨u ++ (c1 ++ (w ++ c2)), c3 ++ '[' :: (c4 ++ ']' :: t), ?_⟩
        rw [hs, hv]
        simp
      rw [this] at h
      exact absurd h (by simp)
    · apply h
      rw [hs, hv]
      simp
    · apply h
      rw [hs, hv]
      simp

/-- C5, as stated, fails: `noHeaderStatus` has no line containing `Sinks:`,
and `retrieve_sinks` returns the empty lists, not an error. -/
theorem noHeader_returns_empty :
    (∀ l ∈ statusLines noHeaderStatus, Contains l sinksHeader = false) ∧
      retrieve_sinks (some noHeaderStatus) = .ok ([], []) := by
  decide

/-- C5, amended. When no line of the status text contains `Sinks:`, the first
loop ends with `key` on the last line, the slice after it is empty, and
`retrieve_sinks` returns empty names and ids with no error. -/
theorem retrieve_sinks_no_header (out : Str)
    (hno : ∀ l ∈ statusLines out, Contains l sinksHeader = false) :
    retrieve_sinks (some out) = .ok ([], []) := by
  have hkey := findKey_absent (statusLines out) 0 0 (Split_ne_nil _ _) hno
  simp only [Nat.zero_add] at hkey
  simp only [retrieve_sinks, sinksBlock, hkey, le_refl, if_true, List.drop_length, collectSinks,
    extractSinks]

/-- C5, amended, at the empty status text. -/
theorem retrieve_sinks_no_header_witness :
    (∀ l ∈ statusLines [], Contains l sinksHeader = false) ∧
      retrieve_sinks (some []) = .ok ([], []) :=
  ⟨by decide, retrieve_sinks_no_header [] (by decide)⟩

/-- C8. When `retrieve_sinks` succeeds, no returned name and no returned id
contains any of the glyphs `├`, `─`, `│`, `└`. -/
theorem retrieve_sinks_no_glyph (out : Str) (names nums : List Str)
    (h : retrieve_sinks (some out) = .ok (names, nums)) :
    ∀ g ∈ glyphs, (∀ name ∈ names, g ∉ name) ∧ (∀ id ∈ nums, g ∉ id) := by
  obtain ⟨sinks, _, hret, hlines⟩ := sinksBlock_spec out
  have hex := extractSinks_eq sinks [] []
  simp only [List.nil_append] at hex
  rw [hret, hex] at h
  by_cases hall : sinks.all sinkMatches = true
  · rw [if_pos hall] at h
    simp only [Except.ok.injEq, Prod.mk.injEq] at h
    obtain ⟨rfl, rfl⟩ := h
    intro g hg
    refine ⟨?_, ?_⟩
    · intro name hname hmem
      obtain ⟨l, hl, rfl⟩ := List.mem_map.mp hname
      obtain ⟨u, v, c1, w, c2, c3, c4, t, hs, hv, hn, _⟩ :=
        sinkName_sinkId_shape (List.all_eq_true.mp hall l hl)
      have hgl : g ∈ l := by
        rw [hn] at hmem
        rw [hs, hv.1]
        simp only [List.mem_append, List.mem_cons] at hmem ⊢
        tauto
      exact ((hlines l hl).2 g hgl).2 hg
    · intro id hid hmem
      obtain ⟨l, hl, rfl⟩ := List.mem_map.mp hid
      obtain ⟨u, v, c1, w, c2, c3, c4, t, hs, hv, _, hi⟩ :=
        sinkName_sinkId_shape (List.all_eq_true.mp hall l hl)
      have hgl : g ∈ l := by
        rw [hi] at hmem
        rw [hs, hv.1]
        simp only [List.mem_append, List.mem_cons] at hmem ⊢
        tauto
      exact ((hlines l hl).2 g hgl).2 hg
  · rw [if_neg hall] at h
    exact absurd h (by simp)

/-- C8 at `sampleStatus`, whose lines carry glyphs. -/
theorem retrieve_sinks_no_glyph_witness :
    retrieve_sinks (some sampleStatus) =
      .ok (["*Built-in Audio ".toList, "HDMI ".toList], ["46".toList, "47".toList]) ∧
    ∀ g ∈ glyphs,
      (∀ name ∈ ["*Built-in Audio ".toList, "HDMI ".toList], g ∉ name) ∧
      (∀ id ∈ ["46".toList, "47".toList], g ∉ id) :=
  ⟨by decide, retrieve_sinks_no_glyph sampleStatus ["*Built-in Audio ".toList, "HDMI ".toList]
    ["46".toList, "47".toList] (by decide)⟩

/-- C6. For every line of the sinks block of a successful `retrieve_sinks`:
the id returned for it is the run `d` of digits that stands right before the
first `. ` of the line - the empty string when no digit stands there, `3`
when the digits are `3`. Every returned id consists of the digits 0-9 only. -/
theorem retrieve_sinks_id (out : Str) (names nums : List Str)
    (h : retrieve_sinks (some out) = .ok (names, nums)) :
    ∃ sinks, sinksBlock out = some sinks ∧ nums.length = sinks.length ∧
      (∀ (k : Nat) (line a d b : Str), sinks[k]? = some line →
        line = a ++ (d ++ '.' :: ' ' :: b) → (∀ ch ∈ d, reDigit ch = true) →
        (∀ x, a.getLast? = some x → reDigit x = false) →
        Contains (a ++ d) ". ".toList = false → nums[k]? = some d) ∧
      (∀ (k : Nat) (line a b : Str), sinks[k]? = some line →
        line = a ++ '.' :: ' ' :: b → (∀ x, a.getLast? = some x → reDigit x = false) →
        Contains a ". ".toList = false → nums[k]? = some []) ∧
      ∀ id ∈ nums, ∀ ch ∈ id, reDigit ch = true := by
  obtain ⟨sinks, hblock, _, hnums, hlines⟩ := retrieve_sinks_ok h
  have hgen : ∀ (k : Nat) (line a d b : Str), sinks[k]? = some line →
      line = a ++ (d ++ '.' :: ' ' :: b) → (∀ ch ∈ d, reDigit ch = true) →
      (∀ x, a.getLast? = some x → reDigit x = false) →
      Contains (a ++ d) ". ".toList = false → nums[k]? = some d := by
    intro k line a d b hk hline hd ha hfirst
    obtain ⟨hm, hnl⟩ := hlines line (List.mem_iff_getElem?.mpr ⟨k, hk⟩)
    rw [hnums, List.getElem?_map, hk, Option.map_some',
      sinkId_of_first_sep hnl hm hline hd ha hfirst]
  refine ⟨sinks, hblock, by rw [hnums]; simp, hgen, ?_, ?_⟩
  · intro k line a b hk hline ha hfirst
    exact hgen k line a [] b hk (by simpa using hline) (by simp) ha (by simpa using hfirst)
  · intro id hid ch hch
    rw [hnums] at hid
    obtain ⟨l, hl, rfl⟩ := List.mem_map.mp hid
    obtain ⟨u, v, c1, w, c2, c3, c4, t, _, hv, _, hi⟩ := sinkName_sinkId_shape (hlines l hl).1
    rw [hi] at hch
    exact hv.2.2.2.1 ch hch

/-- C6 at `sampleStatus`: the ids `46` and `47`. -/
theorem retrieve_sinks_id_witness :
    retrieve_sinks (some sampleStatus) =
      .ok (["*Built-in Audio ".toList, "HDMI ".toList], ["46".toList, "47".toList]) ∧
    ∃ sinks, sinksBlock sampleStatus = some sinks ∧
      ["46".toList, "47".toList].length = sinks.length ∧
      (∀ (k : Nat) (line a d b : Str), sinks[k]? = some line →
        line = a ++ (d ++ '.' :: ' ' :: b) → (∀ ch ∈ d, reDigit ch = true) →
        (∀ x, a.getLast? = some x → reDigit x = false) →
        Contains (a ++ d) ". ".toList = false → ["46".toList, "47".toList][k]? = some d) ∧
      (∀ (k : Nat) (line a b : Str), sinks[k]? = some line →
        line = a ++ '.' :: ' ' :: b → (∀ x, a.getLast? = some x → reDigit x = false) →
        Contains a ". ".toList = false → ["46".toList, "47".toList][k]? = some []) ∧
      ∀ id ∈ ["46".toList, "47".toList], ∀ ch ∈ id, reDigit ch = true :=
  ⟨by decide, retrieve_sinks_id sampleStatus ["*Built-in Audio ".toList, "HDMI ".toList]
    ["46".toList, "47".toList] (by decide)⟩

/-- C7, as stated, fails in both directions: in `markerStatus` the line
`* x. Foo [v]` begins with `*` and matches, yet its name is `Foo `; the line
`1. *Foo [v]` does not begin with `*`, yet its name is `*Foo `. -/
theorem marker_not_from_line_start :
    sinksBlock markerStatus = some ["* x. Foo [v]".toList, "1. *Foo [v]".toList] ∧
      retrieve_sinks (some markerStatus) =
        .ok (["Foo ".toList, "*Foo ".toList], [[], "1".toList]) := by
  decide

/-- C7, amended. For every line of the sinks block of a successful
`retrieve_sinks` that reads as a sink line from its very start - an optional
`*`, white space, digits, then the first `. `: when the line begins with `*`
the name returned for it begins with `*`; when it does not, the name begins
with `*` only if the name text right after the `. ` does. -/
theorem retrieve_sinks_marker (out : Str) (names nums : List Str)
    (h : retrieve_sinks (some out) = .ok (names, nums)) :
    ∃ sinks, sinksBlock out = some sinks ∧
      ∀ (k : Nat) (line c w d b : Str), sinks[k]? = some line →
        line = c ++ (w ++ (d ++ '.' :: ' ' :: b)) → (c = ['*'] ∨ c = []) →
        (∀ ch ∈ w, reSpace ch = true) → (∀ ch ∈ d, reDigit ch = true) →
        ∃ name, names[k]? = some name ∧ (c = ['*'] → name.head? = some '*') ∧
          (c = [] → (name.head? = some '*' ↔ b.head? = some '*')) := by
  obtain ⟨sinks, hblock, hnames, _, hlines⟩ := retrieve_sinks_ok h
  refine ⟨sinks, hblock, ?_⟩
  intro k line c w d b hk hline hc hw hd
  obtain ⟨hm, hnl⟩ := hlines line (List.mem_iff_getElem?.mpr ⟨k, hk⟩)
  refine ⟨sinkName line, ?_, sinkName_marker hnl hm hline hc hw hd⟩
  rw [hnames, List.getElem?_map, hk, Option.map_some']

/-- C7, amended, at `sampleStatus`: `*Built-in Audio ` for the marked line,
`HDMI ` for the other. -/
theorem retrieve_sinks_marker_witness :
    retrieve_sinks (some sampleStatus) =
      .ok (["*Built-in Audio ".toList, "HDMI ".toList], ["46".toList, "47".toList]) ∧
    ∃ sinks, sinksBlock sampleStatus = some sinks ∧
      ∀ (k : Nat) (line c w d b : Str), sinks[k]? = some line →
        line = c ++ (w ++ (d ++ '.' :: ' ' :: b)) → (c = ['*'] ∨ c = []) →
        (∀ ch ∈ w, reSpace ch = true) → (∀ ch ∈ d, reDigit ch = true) →
        ∃ name, ["*Built-in Audio ".toList, "HDMI ".toList][k]? = some name ∧
          (c = ['*'] → name.head? = some '*') ∧
          (c = [] → (name.head? = some '*' ↔ b.head? = some '*')) :=
  ⟨by decide, retrieve_sinks_marker sampleStatus ["*Built-in Audio ".toList, "HDMI ".toList]
    ["46".toList, "47".toList] (by decide)⟩

/-! ## The selector: the claims -/

/-- C3, as stated, fails: for the one sink with the empty name and the id `1`
(the line `1. [vol]` parses to it), confirming at cursor 0 starts no command. -/
theorem confirm_unnamed_sink_runs_nothing :
    (tui [[]] ["1".toList]).map (fun m =>
      (model.View (fun _ => true) id (fun _ => [])
        (model.Update idleListUpdate (m.atCursor 0) (.KeyMsg "enter".toList)).1).execs) =
      some [] := by
  decide

/-- C3, amended. For the model `tui` builds from lists of equal length and every
cursor position `k` inside them whose name `names[k]` is not empty, `enter` in
`Update` followed by `View` starts exactly one command, `wpctl set-default`
with `nums[k]` as its argument. -/
theorem confirm_sets_default (listUpdate : ListModel → Msg → ListModel × Cmd)
    (run : List Str → Bool) (render : Str → Str) (listView : ListModel → Str)
    (names nums : List Str) (k : Nat) (name id : Str)
    (hlen : names.length = nums.length)
    (hname : names[k]? = some name) (hid : nums[k]? = some id) (hne : name ≠ []) :
    ∃ m, tui names nums = some m ∧
      ((m.atCursor k).Update listUpdate (.KeyMsg "enter".toList)).1.choice = name ∧
      ((m.atCursor k).Update listUpdate (.KeyMsg "enter".toList)).1.id = id ∧
      ((m.atCursor k).Update listUpdate (.KeyMsg "enter".toList)).2 = .Quit ∧
      (model.View run render listView
        ((m.atCursor k).Update listUpdate (.KeyMsg "enter".toList)).1).execs =
        [["wpctl".toList, "set-default".toList, id]] := by
  obtain ⟨items, hitems, _, hget⟩ := tuiItems_spec nums names 0 (by omega)
  have hsel : items[k]? = some { name := name, id := id } :=
    hget k name id hname (by simpa using hid)
  refine ⟨(⟨⟨items, 0, defaultWidth⟩, [], [], false⟩ : model),
    by simp only [tui, hitems, Option.map_some'], ?_⟩
  have hq : ("enter".toList = "q".toList ∨ "enter".toList = "ctrl+c".toList) = False := by
    simp
  simp only [model.Update, model.atCursor, ListModel.SelectedItem, hsel, hq, if_false, if_true,
    model.View, hne, ne_eq, not_false_eq_true, setDefault, true_and]
  split <;> rfl

/-- C3, amended, at two sinks: confirming at cursor 1 runs `wpctl set-default 47`. -/
theorem confirm_sets_default_witness :
    ∃ m, tui ["*Built-in Audio ".toList, "HDMI ".toList] ["46".toList, "47".toList] = some m ∧
      ((m.atCursor 1).Update idleListUpdate (.KeyMsg "enter".toList)).1.choice = "HDMI ".toList ∧
      ((m.atCursor 1).Update idleListUpdate (.KeyMsg "enter".toList)).1.id = "47".toList ∧
      ((m.atCursor 1).Update idleListUpdate (.KeyMsg "enter".toList)).2 = .Quit ∧
      (model.View (fun _ => true) id (fun _ => [])
        ((m.atCursor 1).Update idleListUpdate (.KeyMsg "enter".toList)).1).execs =
        [["wpctl".toList, "set-default".toList, "47".toList]] :=
  confirm_sets_default idleListUpdate (fun _ => true) id (fun _ => [])
    ["*Built-in Audio ".toList, "HDMI ".toList] ["46".toList, "47".toList] 1
    "HDMI ".toList "47".toList (by decide) (by decide) (by decide) (by decide)

/-- C9. For every model with nothing chosen (in particular every model in the
Browsing state, where `quitting` is false as well), over any list and cursor,
`q` or `ctrl+c` in `Update` leaves `choice` and `id` unchanged, sets `quitting`
and returns `tea.Quit`; `View` then starts no command and renders
`Skipping for now...`. -/
theorem cancel_runs_nothing (listUpdate : ListModel → Msg → ListModel × Cmd)
    (run : List Str → Bool) (render : Str → Str) (listView : ListModel → Str)
    (m : model) (key : Str) (hchoice : m.choice = [])
    (hkey : key = "q".toList ∨ key = "ctrl+c".toList) :
    (m.Update listUpdate (.KeyMsg key)).1.choice = m.choice ∧
      (m.Update listUpdate (.KeyMsg key)).1.id = m.id ∧
      (m.Update listUpdate (.KeyMsg key)).1.quitting = true ∧
      (m.Update listUpdate (.KeyMsg key)).1.list = m.list ∧
      (m.Update listUpdate (.KeyMsg key)).2 = .Quit ∧
      model.View run render listView (m.Update listUpdate (.KeyMsg key)).1 =
        { execs := [], fatal := false, text := render "Skipping for now...".toList } := by
  simp only [model.Update, hkey, if_true, model.View, hchoice, ne_eq, not_true_eq_false,
    if_false, and_self]

/-- C9 at `browsingModel` and the key `ctrl+c`. -/
theorem cancel_runs_nothing_witness :
    (browsingModel.Update idleListUpdate (.KeyMsg "ctrl+c".toList)).1.choice =
        browsingModel.choice ∧
      (browsingModel.Update idleListUpdate (.KeyMsg "ctrl+c".toList)).1.id = browsingModel.id ∧
      (browsingModel.Update idleListUpdate (.KeyMsg "ctrl+c".toList)).1.quitting = true ∧
      (browsingModel.Update idleListUpdate (.KeyMsg "ctrl+c".toList)).1.list =
        browsingModel.list ∧
      (browsingModel.Update idleListUpdate (.KeyMsg "ctrl+c".toList)).2 = .Quit ∧
      model.View (fun _ => true) id (fun _ => [])
          (browsingModel.Update idleListUpdate (.KeyMsg "ctrl+c".toList)).1 =
        { execs := [], fatal := false, text := id "Skipping for now...".toList } :=
  cancel_runs_nothing idleListUpdate (fun _ => true) id (fun _ => []) browsingModel
    "ctrl+c".toList (by decide) (by decide)

/-- C10, as stated, fails: `Update` has no guard on the terminal states. `enter`
on the Cancelled model sets `choice` and `id`, after which `View` starts
`wpctl set-default 47`; `q` on the Confirmed model sets `quitting`; `enter` on
the Confirmed model with the cursor elsewhere changes the chosen record. -/
theorem terminal_states_still_move :
    (cancelledModel.Update idleListUpdate (.KeyMsg "enter".toList)).1.choice = "HDMI ".toList ∧
      (model.View (fun _ => true) id (fun _ => [])
        (cancelledModel.Update idleListUpdate (.KeyMsg "enter".toList)).1).execs =
        [["wpctl".toList, "set-default".toList, "47".toList]] ∧
      (confirmedModel.Update idleListUpdate (.KeyMsg "q".toList)).1.quitting = true ∧
      confirmedModel.quitting = false ∧
      ((confirmedModel.atCursor 0).Update idleListUpdate (.KeyMsg "enter".toList)).1.id =
        "46".toList := by
  decide

/-- C10, amended. For every model, in a terminal state (`choice` set, or
`quitting` true) or not: every message other than the keys `q`, `ctrl+c` and `enter`
leaves `choice`, `id` and `quitting` unchanged; `q` and `ctrl+c` leave `choice`
and `id` unchanged and set `quitting`; `enter` leaves `quitting` unchanged and
copies the selected item, if there is one, into `choice` and `id`. -/
theorem terminal_update (listUpdate : ListModel → Msg → ListModel × Cmd) (m : model)
    (msg : Msg) :
    ((∀ key, msg = .KeyMsg key →
        key ≠ "q".toList ∧ key ≠ "ctrl+c".toList ∧ key ≠ "enter".toList) →
      (m.Update listUpdate msg).1.choice = m.choice ∧
      (m.Update listUpdate msg).1.id = m.id ∧
      (m.Update listUpdate msg).1.quitting = m.quitting) ∧
    ((msg = .KeyMsg "q".toList ∨ msg = .KeyMsg "ctrl+c".toList) →
      (m.Update listUpdate msg).1.choice = m.choice ∧
      (m.Update listUpdate msg).1.id = m.id ∧
      (m.Update listUpdate msg).1.quitting = true) ∧
    (msg = .KeyMsg "enter".toList →
      (m.Update listUpdate msg).1.quitting = m.quitting ∧
      (m.list.SelectedItem = none →
        (m.Update listUpdate msg).1.choice = m.choice ∧ (m.Update listUpdate msg).1.id = m.id) ∧
      ∀ i, m.list.SelectedItem = some i →
        (m.Update listUpdate msg).1.choice = i.name ∧ (m.Update listUpdate msg).1.id = i.id) := by
  refine ⟨?_, ?_, ?_⟩
  · intro hkey
    cases msg with
    | WindowSizeMsg w hgt => simp [model.Update]
    | KeyMsg key =>
      obtain ⟨h1, h2, h3⟩ := hkey key rfl
      have hq : ¬ (key = "q".toList ∨ key = "ctrl+c".toList) := by
        rintro (h | h)
        · exact h1 h
        · exact h2 h
      simp only [model.Update, if_neg hq, if_neg h3, and_self]
    | other tag => simp [model.Update]
  · rintro (rfl | rfl) <;> simp [model.Update]
  · rintro rfl
    have hq : ("enter".toList = "q".toList ∨ "enter".toList = "ctrl+c".toList) = False := by
      simp
    refine ⟨?_, ?_, ?_⟩
    · simp only [model.Update, hq, if_false, if_true]
      split <;> rfl
    · intro hnone
      simp only [model.Update, hq, if_false, if_true, hnone, and_self]
    · intro i hi
      simp only [model.Update, hq, if_false, if_true, hi, and_self]

/-- C10, amended, at the Cancelled model and a window-size message. -/
theorem terminal_update_witness :
    (cancelledModel.choice ≠ [] ∨ cancelledModel.quitting = true) ∧
    (cancelledModel.Update idleListUpdate (.WindowSizeMsg 80 24)).1.choice =
        cancelledModel.choice ∧
      (cancelledModel.Update idleListUpdate (.WindowSizeMsg 80 24)).1.id = cancelledModel.id ∧
      (cancelledModel.Update idleListUpdate (.WindowSizeMsg 80 24)).1.quitting =
        cancelledModel.quitting :=
  ⟨by decide, (terminal_update idleListUpdate cancelledModel (.WindowSizeMsg 80 24)).1
    (by intro key h; cases h)⟩

end Wp
